import Mathlib

/-!
Shallow embedding of the SCF (Hartree-Fock) core of this repository:

* the unrestricted SCF + DIIS driver of `02_SCF/advanced/uhf_diis_psi4.ipynb`
  (core guess, per-channel G/Fock build, electronic energy, DIIS residuals,
  the `diis` extrapolation function, the iteration loop with its dual
  convergence test and iteration ceiling);
* the restricted SCF driver of the MP2 notebook (zero initial density,
  compressed two-electron vector accessed through `idx2`/`idx4`, single-channel
  G/Fock build, its loop and the same convergence test).

Matrix entries are embedded as rationals (the notebooks compute with floats;
all claims under study are about the algebraic structure of the computations,
not about rounding).  External numerical collaborators are embedded as
follows: the generalized symmetric eigensolver `scipy.linalg.eigh` is an
explicit oracle parameter returning the coefficient matrix `C` (the only part
of its output the loops consume); the orthogonalizer output
`A = S^(-1/2)` (`scipy.linalg.fractional_matrix_power`) is an input field;
`numpy.linalg.solve` is modelled exactly (unique solution when the matrix is
invertible, `LinAlgError`, i.e. `none`, when it is singular).

The code computes `np.sqrt(x) < threshold` for the density RMS test.  To keep
the driver executable over ℚ we store the radicand and decide the comparison
through `sqrtLtQ`, proved equivalent to `Real.sqrt x < threshold`
(`sqrtLtQ_iff_sqrt_lt` below), so theorems can state the test with the real
square root exactly as the code writes it.
-/

namespace SCF

/-- Square matrices over the atomic-orbital basis, entries embedded as ℚ. -/
abbrev Mat (n : ℕ) := Matrix (Fin n) (Fin n) ℚ

/-- Dense two-electron integral tensor `eri[i,j,k,l]` (UHF notebook). -/
abbrev ERI (n : ℕ) := Fin n → Fin n → Fin n → Fin n → ℚ

/-- The eigensolver oracle: given `F` and `S`, `scipy.linalg.eigh(F, S)`
returns `(E_orbitals, C)`; the loops only consume `C`, so the oracle returns
the coefficient matrix. -/
abbrev Eigh (n : ℕ) := Mat n → Mat n → Mat n

/-- Density build (both notebooks): `D[i,j] += C[i,k]*C[j,k]` for
`k in range(N)`. -/
def densityMatrix {n : ℕ} (C : Mat n) (N : ℕ) : Mat n :=
  Matrix.of fun i j => ∑ k : Fin n, if (k : ℕ) < N then C i k * C j k else 0

/-- UHF notebook, G build (one spin channel `sigma`):
`G[i,j] += D[k,l] * (2.0*eri[i,j,k,l] - eri[i,k,j,l])` where `D` is that
channel's own density `D_sigma`. -/
def uhfG {n : ℕ} (eri : ERI n) (D : Mat n) : Mat n :=
  Matrix.of fun i j =>
    ∑ k : Fin n, ∑ l : Fin n, D k l * (2 * eri i j k l - eri i k j l)

/-- The per-channel intermediate matrix as the spec (and the notebook's own
markdown) words it: `Gσ_ij = Σ_kl Ptotal_kl·(ij|kl) − Pσ_kl·(ik|jl)`, the
Coulomb term contracted against the *total* density. Written from the spec's
words only, for comparison with `uhfG` above. -/
def uhfG_specFormula {n : ℕ} (eri : ERI n) (Dtotal Dsigma : Mat n) : Mat n :=
  Matrix.of fun i j =>
    ∑ k : Fin n, ∑ l : Fin n,
      (Dtotal k l * eri i j k l - Dsigma k l * eri i k j l)

/-- Canonical pair index of the compressed two-electron store (RHF notebook):
`i*(i+1)/2 + j` for `i ≥ j`, arguments swapped otherwise.  (The notebook
memoizes this in `__idx2_cache`; the cache is behaviourally transparent.) -/
def idx2 (i j : ℕ) : ℕ :=
  if i ≥ j then i * (i + 1) / 2 + j else j * (j + 1) / 2 + i

/-- Canonical 4-index of the compressed two-electron store (RHF notebook). -/
def idx4 (i j k l : ℕ) : ℕ := idx2 (idx2 i j) (idx2 k l)

/-- RHF notebook, G build:
`G[i,j] += D[k,l] * (2.0*eri[idx4(i,j,k,l)] - eri[idx4(i,k,j,l)])` over the
8-fold-compressed integral vector. -/
def rhfG {n : ℕ} (eriVec : ℕ → ℚ) (D : Mat n) : Mat n :=
  Matrix.of fun i j =>
    ∑ k : Fin n, ∑ l : Fin n,
      D k l * (2 * eriVec (idx4 i j k l) - eriVec (idx4 i k j l))

/-- `np.einsum('ij,ij->', X, Y)`: the Frobenius inner product. -/
def frobInner {n : ℕ} (X Y : Mat n) : ℚ := ∑ i, ∑ j, X i j * Y i j

/-- DIIS error vector (UHF notebook):
`A.T @ (F @ D @ S - S @ D @ F) @ A`. -/
def diisResidual {n : ℕ} (A S F D : Mat n) : Mat n :=
  A.transpose * (F * D * S - S * D * F) * A

/-- Model of `numpy.linalg.solve`: the unique solution of `B · x = b` when
`B` is invertible, and `none` (numpy raises `LinAlgError`) when `B` is
singular.  For an invertible rational matrix `B⁻¹ = (det B)⁻¹ • adjugate B`. -/
def npSolve {m : ℕ} (B : Matrix (Fin m) (Fin m) ℚ) (b : Fin m → ℚ) :
    Option (Fin m → ℚ) :=
  if B.det = 0 then none else some ((B.det)⁻¹ • B.adjugate.mulVec b)

/-- The Pulay B matrix built by `diis` (UHF notebook): size
`len(F_list) + 1`, last row and column `-1`, bottom-right `0`, and
`B[i,j] = np.einsum('ij,ij->', diis_res[i], diis_res[j])` for the leading
block. -/
def diisB {n : ℕ} (F_list res : List (Mat n)) :
    Matrix (Fin (F_list.length + 1)) (Fin (F_list.length + 1)) ℚ :=
  Matrix.of fun i j =>
    if (i : ℕ) < F_list.length ∧ (j : ℕ) < F_list.length then
      frobInner (res.getD i 0) (res.getD j 0)
    else if (i : ℕ) = F_list.length ∧ (j : ℕ) = F_list.length then 0
    else -1

/-- Right-hand side of the Pulay system: zeros with last entry `-1`. -/
def diisRhs (m : ℕ) : Fin (m + 1) → ℚ := fun i => if (i : ℕ) = m then -1 else 0

/-- The `diis` function of the UHF notebook: build the Pulay `B` matrix,
solve `B · cn = right` with `np.linalg.solve`, and return
`F_diis = Σ_{x < len(F_list)} cn[x] * F_list[x]`.  A singular `B` makes
`np.linalg.solve` raise `LinAlgError` (no handler in the notebook), embedded
as `none`. -/
def diis {n : ℕ} (F_list res : List (Mat n)) : Option (Mat n) :=
  (npSolve (diisB F_list res) (diisRhs F_list.length)).map fun cn =>
    ∑ x : Fin F_list.length, cn x.castSucc • F_list.get x

/-- `iteration_max = 100` (both notebooks). -/
def iteration_max : ℕ := 100

/-- `convergence_E = 1e-9` (both notebooks). -/
def convergence_E : ℚ := 1 / 10 ^ 9

/-- `convergence_DM = 1e-5` (both notebooks). -/
def convergence_DM : ℚ := 1 / 10 ^ 5

/-- Decidable rational rendering of `np.sqrt(x) < c` (for the radicand `x`):
equivalent to `Real.sqrt x < c`, see `sqrtLtQ_iff_sqrt_lt`. -/
def sqrtLtQ (x c : ℚ) : Prop := 0 < c ∧ x < c ^ 2

instance (x c : ℚ) : Decidable (sqrtLtQ x c) := by
  unfold sqrtLtQ; infer_instance

/-- Sum of squared entry differences: the radicand of the notebooks'
`np.sqrt(np.sum((D_new - D_old)**2))`. -/
def rmscSq {n : ℕ} (Dnew Dold : Mat n) : ℚ :=
  ∑ i, ∑ j, (Dnew i j - Dold i j) ^ 2

/-- Fixed inputs of the UHF driver: overlap, core Hamiltonian, dense
two-electron tensor, orthogonalizer output `A = S^(-1/2)` (external scipy
call), per-channel electron counts, nuclear repulsion energy. -/
structure UHFInput (n : ℕ) where
  S : Mat n
  H : Mat n
  eri : ERI n
  A : Mat n
  num_elec_alpha : ℕ
  num_elec_beta : ℕ
  E_nuc : ℚ
deriving Inhabited

/-- Mutable state of the UHF SCF loop. `iteration_rmsc_dm_sq` stores the
radicand of the notebook's `iteration_rmsc_dm` (see `sqrtLtQ`). -/
structure UHFState (n : ℕ) where
  iteration_num : ℕ
  E_elec : ℚ
  E_total : ℚ
  D_alpha : Mat n
  D_beta : Mat n
  D_total : Mat n
  F_list_alpha : List (Mat n)
  F_list_beta : List (Mat n)
  DIIS_resid_alpha : List (Mat n)
  DIIS_resid_beta : List (Mat n)
  iteration_E_diff : ℚ
  iteration_rmsc_dm_sq : ℚ
  converged : Bool
  exceeded_iterations : Bool
deriving Inhabited

/-- Raw (unextrapolated) per-channel Fock matrix: `F = H + G`. -/
def uhfRawFock {n : ℕ} (H : Mat n) (eri : ERI n) (D : Mat n) : Mat n :=
  H + uhfG eri D

/-- UHF electronic energy (computed before DIIS and before the density
rebuild): `0.5 * np.sum(D_total*H + D_alpha*F_alpha + D_beta*F_beta)`
(elementwise products). -/
def uhfEnergy {n : ℕ} (H Dtot Da Db Fa Fb : Mat n) : ℚ :=
  (1 / 2) * ∑ i, ∑ j, (Dtot i j * H i j + Da i j * Fa i j + Db i j * Fb i j)

/-- Core guess of the UHF notebook (STEP 3): diagonalize `H` against `S`,
fill the lowest `num_elec_alpha` (resp. `num_elec_beta`) orbitals of that one
eigensolution into each channel's density. -/
def uhfInit {n : ℕ} (inp : UHFInput n) (eigh : Eigh n) : UHFState n :=
  let C := eigh inp.H inp.S
  let D_alpha := densityMatrix C inp.num_elec_alpha
  let D_beta := densityMatrix C inp.num_elec_beta
  { iteration_num := 0
    E_elec := 0
    E_total := 0
    D_alpha := D_alpha
    D_beta := D_beta
    D_total := D_alpha + D_beta
    F_list_alpha := []
    F_list_beta := []
    DIIS_resid_alpha := []
    DIIS_resid_beta := []
    iteration_E_diff := 0
    iteration_rmsc_dm_sq := 0
    converged := false
    exceeded_iterations := false }

/-- Loop body, `F_alpha = H + G_alpha` built from the entering alpha
density. -/
def uhfF_alpha {n : ℕ} (inp : UHFInput n) (s : UHFState n) : Mat n :=
  uhfRawFock inp.H inp.eri s.D_alpha

/-- Loop body, `F_beta = H + G_beta` built from the entering beta density. -/
def uhfF_beta {n : ℕ} (inp : UHFInput n) (s : UHFState n) : Mat n :=
  uhfRawFock inp.H inp.eri s.D_beta

/-- Loop body, `E_elec = 0.5 * np.sum(...)` computed from the entering
densities and the raw (pre-extrapolation) Fock matrices. -/
def uhfE {n : ℕ} (inp : UHFInput n) (s : UHFState n) : ℚ :=
  uhfEnergy inp.H s.D_total s.D_alpha s.D_beta (uhfF_alpha inp s)
    (uhfF_beta inp s)

/-- Loop body, `diis_r_alpha = A.T @ (F @ D @ S - S @ D @ F) @ A`. -/
def uhfResid_alpha {n : ℕ} (inp : UHFInput n) (s : UHFState n) : Mat n :=
  diisResidual inp.A inp.S (uhfF_alpha inp s) s.D_alpha

/-- Loop body, beta-channel DIIS residual. -/
def uhfResid_beta {n : ℕ} (inp : UHFInput n) (s : UHFState n) : Mat n :=
  diisResidual inp.A inp.S (uhfF_beta inp s) s.D_beta

/-- Loop body, the rebuilt alpha density: diagonalize the (possibly
extrapolated) `F1` against `S` and fill the lowest `num_elec_alpha`
orbitals. -/
def uhfPostD_alpha {n : ℕ} (inp : UHFInput n) (eigh : Eigh n) (F1 : Mat n) :
    Mat n :=
  densityMatrix (eigh F1 inp.S) inp.num_elec_alpha

/-- Loop body, the rebuilt beta density. -/
def uhfPostD_beta {n : ℕ} (inp : UHFInput n) (eigh : Eigh n) (F2 : Mat n) :
    Mat n :=
  densityMatrix (eigh F2 inp.S) inp.num_elec_beta

/-- The dual convergence test of the UHF loop, exactly as the source tests
it: `np.abs(iteration_E_diff) < convergence_E and iteration_rmsc_dm <
convergence_DM`, where `iteration_E_diff = np.abs(E_elec - E_elec_last)` and
`iteration_rmsc_dm` is the square root of the summed squared change of
`D_total` (density RMS rendered through `sqrtLtQ`). -/
def uhfTestPass {n : ℕ} (inp : UHFInput n) (eigh : Eigh n) (s : UHFState n)
    (Fab : Mat n × Mat n) : Prop :=
  |(|uhfE inp s - s.E_elec|)| < convergence_E ∧
    sqrtLtQ
      (rmscSq (uhfPostD_alpha inp eigh Fab.1 + uhfPostD_beta inp eigh Fab.2)
        s.D_total)
      convergence_DM

instance {n : ℕ} (inp : UHFInput n) (eigh : Eigh n) (s : UHFState n)
    (Fab : Mat n × Mat n) : Decidable (uhfTestPass inp eigh s Fab) := by
  unfold uhfTestPass; infer_instance

/-- Tail of the UHF loop body, from the generalized eigensolve on the pair of
(possibly DIIS-extrapolated) Fock matrices to the updated loop state. -/
def uhfPost {n : ℕ} (inp : UHFInput n) (eigh : Eigh n) (s : UHFState n)
    (Fab : Mat n × Mat n) : UHFState n :=
  { iteration_num := s.iteration_num + 1
    E_elec := uhfE inp s
    E_total := if uhfTestPass inp eigh s Fab then uhfE inp s + inp.E_nuc
               else s.E_total
    D_alpha := uhfPostD_alpha inp eigh Fab.1
    D_beta := uhfPostD_beta inp eigh Fab.2
    D_total := uhfPostD_alpha inp eigh Fab.1 + uhfPostD_beta inp eigh Fab.2
    F_list_alpha := s.F_list_alpha ++ [uhfF_alpha inp s]
    F_list_beta := s.F_list_beta ++ [uhfF_beta inp s]
    DIIS_resid_alpha := s.DIIS_resid_alpha ++ [uhfResid_alpha inp s]
    DIIS_resid_beta := s.DIIS_resid_beta ++ [uhfResid_beta inp s]
    iteration_E_diff := |uhfE inp s - s.E_elec|
    iteration_rmsc_dm_sq :=
      rmscSq (uhfPostD_alpha inp eigh Fab.1 + uhfPostD_beta inp eigh Fab.2)
        s.D_total
    converged := if uhfTestPass inp eigh s Fab then true else s.converged
    exceeded_iterations :=
      if s.iteration_num + 1 = iteration_max then true
      else s.exceeded_iterations }

/-- One pass of the UHF SCF loop body.  The appended histories feed `diis`
from the second iteration on (`if iteration_num >= 2`); a singular Pulay
matrix makes `np.linalg.solve` raise, which the notebook does not catch, so
the step returns `none`. -/
def uhfStep {n : ℕ} (inp : UHFInput n) (eigh : Eigh n) (s : UHFState n) :
    Option (UHFState n) :=
  (if 2 ≤ s.iteration_num + 1 then
    match diis (s.F_list_alpha ++ [uhfF_alpha inp s])
            (s.DIIS_resid_alpha ++ [uhfResid_alpha inp s]),
          diis (s.F_list_beta ++ [uhfF_beta inp s])
            (s.DIIS_resid_beta ++ [uhfResid_beta inp s]) with
    | some Fa, some Fb => some (Fa, Fb)
    | _, _ => none
  else some (uhfF_alpha inp s, uhfF_beta inp s)).map (uhfPost inp eigh s)

/-- Fuel-indexed rendering of the UHF
`while (not converged and not exceeded_iterations)` loop; `none` means an
uncaught `LinAlgError` from `diis` aborted the run. -/
def uhfLoop {n : ℕ} (inp : UHFInput n) (eigh : Eigh n) :
    ℕ → UHFState n → Option (UHFState n)
  | 0, s => some s
  | fuel + 1, s =>
    if s.converged = false ∧ s.exceeded_iterations = false then
      (uhfStep inp eigh s).bind (uhfLoop inp eigh fuel)
    else some s

/-- Fixed inputs of the RHF driver (MP2 notebook): overlap, core Hamiltonian,
8-fold-compressed two-electron vector, electron counts, nuclear repulsion. -/
structure RHFInput (n : ℕ) where
  S : Mat n
  H : Mat n
  eriVec : ℕ → ℚ
  num_elec_alpha : ℕ
  num_elec_beta : ℕ
  E_nuc : ℚ
deriving Inhabited

/-- Mutable state of the RHF SCF loop (MP2 notebook). -/
structure RHFState (n : ℕ) where
  iteration_num : ℕ
  E_scf_elec : ℚ
  D : Mat n
  iteration_E_diff : ℚ
  iteration_rmsc_dm_sq : ℚ
  converged : Bool
  exceeded_iterations : Bool
deriving Inhabited

/-- Initial state of the RHF driver: `D = np.zeros((num_ao, num_ao))` — the
density is seeded to zero, not from a core-Hamiltonian guess. -/
def rhfInit {n : ℕ} (_inp : RHFInput n) : RHFState n :=
  { iteration_num := 0
    E_scf_elec := 0
    D := 0
    iteration_E_diff := 0
    iteration_rmsc_dm_sq := 0
    converged := false
    exceeded_iterations := false }

/-- RHF loop body, `F = H + G` built from the entering density. -/
def rhfF {n : ℕ} (inp : RHFInput n) (s : RHFState n) : Mat n :=
  inp.H + rhfG inp.eriVec s.D

/-- RHF loop body, the rebuilt density (`num_elec_alpha` occupied
orbitals). -/
def rhfD' {n : ℕ} (inp : RHFInput n) (eigh : Eigh n) (s : RHFState n) :
    Mat n :=
  densityMatrix (eigh (rhfF inp s) inp.S) inp.num_elec_alpha

/-- RHF loop body, `E_scf_elec = np.sum(np.multiply(D, (H + F)))` — note the
source order: the *new* density `D` with the Fock matrix built from the
previous density, and no `0.5` factor. -/
def rhfE' {n : ℕ} (inp : RHFInput n) (eigh : Eigh n) (s : RHFState n) : ℚ :=
  ∑ i, ∑ j, rhfD' inp eigh s i j * (inp.H i j + rhfF inp s i j)

/-- The dual convergence test of the RHF loop, same shape as the UHF one. -/
def rhfTestPass {n : ℕ} (inp : RHFInput n) (eigh : Eigh n) (s : RHFState n) :
    Prop :=
  |(|rhfE' inp eigh s - s.E_scf_elec|)| < convergence_E ∧
    sqrtLtQ (rmscSq (rhfD' inp eigh s) s.D) convergence_DM

instance {n : ℕ} (inp : RHFInput n) (eigh : Eigh n) (s : RHFState n) :
    Decidable (rhfTestPass inp eigh s) := by
  unfold rhfTestPass; infer_instance

/-- One pass of the RHF SCF loop body (this driver has no DIIS). -/
def rhfStep {n : ℕ} (inp : RHFInput n) (eigh : Eigh n) (s : RHFState n) :
    RHFState n :=
  { iteration_num := s.iteration_num + 1
    E_scf_elec := rhfE' inp eigh s
    D := rhfD' inp eigh s
    iteration_E_diff := |rhfE' inp eigh s - s.E_scf_elec|
    iteration_rmsc_dm_sq := rmscSq (rhfD' inp eigh s) s.D
    converged := if rhfTestPass inp eigh s then true else s.converged
    exceeded_iterations :=
      if s.iteration_num + 1 = iteration_max then true
      else s.exceeded_iterations }

/-- Fuel-indexed rendering of the RHF while loop. -/
def rhfLoop {n : ℕ} (inp : RHFInput n) (eigh : Eigh n) :
    ℕ → RHFState n → RHFState n
  | 0, s => s
  | fuel + 1, s =>
    if s.converged = false ∧ s.exceeded_iterations = false then
      rhfLoop inp eigh fuel (rhfStep inp eigh s)
    else s

/-- Pointwise symmetry of a square matrix. -/
def MatSymm {n : ℕ} (M : Mat n) : Prop := ∀ i j, M i j = M j i

instance {n : ℕ} (M : Mat n) : Decidable (MatSymm M) := by
  unfold MatSymm; infer_instance

/-- The 8-fold permutational symmetry of a two-electron tensor, generated by
swapping within the bra pair, within the ket pair, and swapping the two
pairs. -/
def ERISymm {n : ℕ} (eri : ERI n) : Prop :=
  ∀ i j k l, eri i j k l = eri j i k l ∧ eri i j k l = eri i j l k ∧
    eri i j k l = eri k l i j

instance {n : ℕ} (eri : ERI n) : Decidable (ERISymm eri) := by
  unfold ERISymm; infer_instance

/-! ### Concrete instances used by witnesses and counterexamples -/

/-- 1×1 dense two-electron tensor with every integral `1` (trivially 8-fold
symmetric). -/
def eriOne : ERI 1 := fun _ _ _ _ => 1

/-- 1×1 all-zero dense two-electron tensor. -/
def eriZero : ERI 1 := fun _ _ _ _ => 0

/-- The 1×1 matrix `[[1]]`. -/
def matOne1 : Mat 1 := Matrix.of fun _ _ => 1

/-- Eigensolver oracle for 1×1 systems returning the normalized coefficient
matrix `C = [[1]]` (the exact `scipy.linalg.eigh` output for any 1×1 problem
with `S = [[1]]`, up to sign). -/
def eighOne1 : Eigh 1 := fun _ _ => matOne1

/-- Degenerate oracle returning the zero matrix (used on all-zero inputs). -/
def eighZero1 : Eigh 1 := fun _ _ => 0

/-- All-zero 1×1 UHF input. -/
def inpUzero : UHFInput 1 := ⟨0, 0, eriZero, 0, 1, 1, 0⟩

/-- 1×1 UHF input with `S = [[1]]`, `H = [[1]]`, all integrals `1`,
`A = [[1]]`, one electron per channel. -/
def inpUone : UHFInput 1 := ⟨1, matOne1, eriOne, 1, 1, 1, 0⟩

/-- 1×1 UHF input with `S = [[1]]`, `H = 0`, all integrals `1`. -/
def inpU5 : UHFInput 1 := ⟨1, 0, eriOne, 1, 1, 1, 0⟩

/-- The RHF input describing the same 1×1 system as `inpU5` (the compressed
vector holds the same constant integrals: `eriVec (idx4 i j k l) = 1 =
inpU5.eri i j k l`). -/
def inpR5 : RHFInput 1 := ⟨1, 0, fun _ => 1, 1, 1, 0⟩

/-- All-zero UHF state at iteration 99 with empty histories. -/
def s99 : UHFState 1 := ⟨99, 0, 0, 0, 0, 0, [], [], [], [], 0, 0, false, false⟩

/-- Expected result of stepping `s99` on the all-zero input: iteration 100
(the ceiling) with the convergence test passing, so both flags set. -/
def s100 : UHFState 1 :=
  ⟨100, 0, 0, 0, 0, 0, [0], [0], [0], [0], 0, 0, true, true⟩

/-- UHF state at iteration 1 whose histories already hold one all-zero
trial Fock matrix and one all-zero residual. -/
def sBad : UHFState 1 := ⟨1, 0, 0, 0, 0, 0, [0], [0], [0], [0], 0, 0, false, false⟩

/-- Expected result of the first step on the all-zero input: everything zero,
convergence test passes at iteration 1. -/
def c2s1 : UHFState 1 :=
  ⟨1, 0, 0, 0, 0, 0, [0], [0], [0], [0], 0, 0, true, false⟩

/-- The all-zero initial UHF state (what `uhfInit` produces on the all-zero
input with the zero oracle). -/
def s0z : UHFState 1 := ⟨0, 0, 0, 0, 0, 0, [], [], [], [], 0, 0, false, false⟩

/-- The 1×1 matrix `[[2]]`. -/
def matTwo1 : Mat 1 := Matrix.of fun _ _ => 2

/-- The core-guess initial state on `inpU5` with the `eighOne1` oracle:
both channels seeded with the identical density `[[1]]`. -/
def u5init : UHFState 1 :=
  ⟨0, 0, 0, matOne1, matOne1, matTwo1, [], [], [], [], 0, 0, false, false⟩

/-- The state after one UHF iteration on `inpU5`: electronic energy `1`, raw
Fock `[[1]]` appended per channel, zero residuals, not converged. -/
def u5s1 : UHFState 1 :=
  ⟨1, 1, 0, matOne1, matOne1, matTwo1, [matOne1], [matOne1], [0], [0],
    1, 0, false, false⟩

/-- All-zero 2×2 UHF input. -/
def inpUzero2 : UHFInput 2 := ⟨0, 0, fun _ _ _ _ => 0, 0, 1, 1, 0⟩

/-- Zero oracle for 2×2 systems. -/
def eighZero2 : Eigh 2 := fun _ _ => 0

/-- 2×2 analogue of `sBad`: iteration 1, one all-zero history entry per
channel. -/
def sBad2 : UHFState 2 :=
  ⟨1, 0, 0, 0, 0, 0, [0], [0], [0], [0], 0, 0, false, false⟩

/-- Constant 2×2 two-electron tensor (trivially 8-fold symmetric). -/
def eriTwo : ERI 2 := fun _ _ _ _ => 1

/-- A symmetric 2×2 core Hamiltonian. -/
def matH2 : Mat 2 := Matrix.of ![![0, 7], ![7, 3]]

/-- A symmetric 2×2 density matrix. -/
def matD2 : Mat 2 := Matrix.of ![![1, 2], ![2, 5]]

end SCF

namespace SCF

/-! ### Theorems -/

/-- `sqrtLtQ x c` renders the source's `np.sqrt(x) < c` exactly:
it holds iff `Real.sqrt x < c`. -/
theorem sqrtLtQ_iff_sqrt_lt (x c : ℚ) :
    sqrtLtQ x c ↔ Real.sqrt (x : ℝ) < (c : ℝ) := by
  unfold sqrtLtQ
  constructor
  · rintro ⟨hc, hx⟩
    have hc' : (0 : ℝ) < (c : ℝ) := by exact_mod_cast hc
    rw [Real.sqrt_lt' hc']
    exact_mod_cast hx
  · intro h
    have hc' : (0 : ℝ) < (c : ℝ) := lt_of_le_of_lt (Real.sqrt_nonneg _) h
    refine ⟨by exact_mod_cast hc', ?_⟩
    rw [Real.sqrt_lt' hc'] at h
    exact_mod_cast h

/-- Every successful UHF step is `uhfPost` applied to some pair of
(possibly extrapolated) Fock matrices. -/
theorem uhfStep_inv {n : ℕ} (inp : UHFInput n) (eigh : Eigh n)
    (s s' : UHFState n) (h : uhfStep inp eigh s = some s') :
    ∃ Fab : Mat n × Mat n, s' = uhfPost inp eigh s Fab := by
  unfold uhfStep at h
  rw [Option.map_eq_some'] at h
  obtain ⟨Fab, -, hs'⟩ := h
  exact ⟨Fab, hs'.symm⟩

/-- In the first iteration (`iteration_num = 1 < 2`) the DIIS call is
skipped and the raw Fock pair is the one diagonalized. -/
theorem uhfStep_first {n : ℕ} (inp : UHFInput n) (eigh : Eigh n)
    (s : UHFState n) (h0 : s.iteration_num = 0) :
    uhfStep inp eigh s =
      some (uhfPost inp eigh s (uhfF_alpha inp s, uhfF_beta inp s)) := by
  unfold uhfStep
  rw [if_neg (by omega)]
  rfl

/-- From the second iteration on, a successful DIIS extrapolation on both
channels yields the extrapolated pair. -/
theorem uhfStep_diis {n : ℕ} (inp : UHFInput n) (eigh : Eigh n)
    (s : UHFState n) (h1 : 1 ≤ s.iteration_num) (Fa Fb : Mat n)
    (ha : diis (s.F_list_alpha ++ [uhfF_alpha inp s])
        (s.DIIS_resid_alpha ++ [uhfResid_alpha inp s]) = some Fa)
    (hb : diis (s.F_list_beta ++ [uhfF_beta inp s])
        (s.DIIS_resid_beta ++ [uhfResid_beta inp s]) = some Fb) :
    uhfStep inp eigh s = some (uhfPost inp eigh s (Fa, Fb)) := by
  unfold uhfStep
  rw [if_pos (by omega), ha, hb]
  rfl

/-- From the second iteration on, a failed alpha-channel DIIS solve aborts
the whole step (uncaught `LinAlgError`). -/
theorem uhfStep_none_alpha {n : ℕ} (inp : UHFInput n) (eigh : Eigh n)
    (s : UHFState n) (h1 : 1 ≤ s.iteration_num)
    (ha : diis (s.F_list_alpha ++ [uhfF_alpha inp s])
        (s.DIIS_resid_alpha ++ [uhfResid_alpha inp s]) = none) :
    uhfStep inp eigh s = none := by
  unfold uhfStep
  rw [if_pos (by omega), ha]
  rfl

/-- A singular Pulay matrix makes `diis` fail (`np.linalg.solve` raises). -/
theorem diis_none_of_det_zero {n : ℕ} (F_list res : List (Mat n))
    (h : (diisB F_list res).det = 0) : diis F_list res = none := by
  unfold diis npSolve
  rw [if_pos h]
  rfl

/-- On a history of length 1 the Pulay matrix is
`[[⟨r,r⟩, -1], [-1, 0]]`, whose determinant is `-1` — never singular. -/
theorem diisB_singleton_det {n : ℕ} (F r : Mat n) :
    (diisB [F] [r]).det = -1 := by
  rw [Matrix.det_fin_two]
  simp [diisB]

/-- `diis` on a history of length 1 is a no-op: the Pulay system forces the
coefficient vector `[1]` and the single trial Fock matrix is returned
unchanged. -/
theorem diis_singleton {n : ℕ} (F r : Mat n) : diis [F] [r] = some F := by
  unfold diis npSolve
  rw [diisB_singleton_det, if_neg (by norm_num : ¬(-1 : ℚ) = 0)]
  have hB01 : diisB [F] [r] 0 1 = -1 := by simp [diisB]
  have hB11 : diisB [F] [r] 1 1 = 0 := by simp [diisB]
  have h0 : (diisB [F] [r]).adjugate.mulVec (diisRhs 1) 0 = -1 := by
    rw [Matrix.adjugate_fin_two]
    simp [Matrix.mulVec, Matrix.dotProduct, Fin.sum_univ_two, diisRhs,
      hB01, hB11]
  simp [Fin.sum_univ_one, h0]
  norm_num [inv_neg, neg_smul]

/-- The density built from an all-zero coefficient matrix is zero. -/
theorem densityMatrix_zeroC {n : ℕ} (N : ℕ) :
    densityMatrix (0 : Mat n) N = 0 := by
  ext i j
  simp [densityMatrix]

/-- The per-channel G matrix built from the zero density is zero. -/
theorem uhfG_zeroD {n : ℕ} (eri : ERI n) : uhfG eri (0 : Mat n) = 0 := by
  ext i j
  simp [uhfG]

/-- The DIIS residual of a zero density vanishes. -/
theorem diisResidual_zeroD {n : ℕ} (A S F : Mat n) :
    diisResidual A S F 0 = 0 := by
  unfold diisResidual
  simp

/-- The UHF energy expression vanishes on all-zero densities. -/
theorem uhfEnergy_zeroD {n : ℕ} (H Fa Fb : Mat n) :
    uhfEnergy H 0 0 0 Fa Fb = 0 := by
  simp [uhfEnergy]

/-- `rmscSq` of equal matrices is zero. -/
theorem rmscSq_self {n : ℕ} (D : Mat n) : rmscSq D D = 0 := by
  simp [rmscSq]

/-- The UHF convergence test, unfolded to a plain energy comparison and a
real square-root comparison. -/
theorem uhfTestPass_iff {n : ℕ} (inp : UHFInput n) (eigh : Eigh n)
    (s : UHFState n) (Fab : Mat n × Mat n) :
    uhfTestPass inp eigh s Fab ↔
      |uhfE inp s - s.E_elec| < convergence_E ∧
        Real.sqrt
            ((rmscSq
                (uhfPostD_alpha inp eigh Fab.1 + uhfPostD_beta inp eigh Fab.2)
                s.D_total : ℚ) : ℝ) <
          ((convergence_DM : ℚ) : ℝ) := by
  unfold uhfTestPass
  rw [abs_abs, sqrtLtQ_iff_sqrt_lt]

/-- The RHF convergence test, unfolded the same way. -/
theorem rhfTestPass_iff {n : ℕ} (inp : RHFInput n) (eigh : Eigh n)
    (s : RHFState n) :
    rhfTestPass inp eigh s ↔
      |rhfE' inp eigh s - s.E_scf_elec| < convergence_E ∧
        Real.sqrt ((rmscSq (rhfD' inp eigh s) s.D : ℚ) : ℝ) <
          ((convergence_DM : ℚ) : ℝ) := by
  unfold rhfTestPass
  rw [abs_abs, sqrtLtQ_iff_sqrt_lt]

/-- On the all-zero input with the zero oracle, the core guess is the
all-zero state. -/
theorem uhfInit_zero : uhfInit inpUzero eighZero1 = s0z := by
  simp [uhfInit, s0z, UHFState.mk.injEq, densityMatrix_zeroC, eighZero1,
    inpUzero]

/-- **C2**.  In both drivers, a loop iteration (entered with
`converged = False`, as the `while` guard guarantees) sets `converged = True`
exactly when the energy change is below `convergence_E` *and* the RMS density
change (`np.sqrt` of the summed squared change) is below `convergence_DM`,
simultaneously, in that same iteration; one criterion alone never marks the
run converged. -/
theorem claim_C2 :
    (∀ (n : ℕ) (inp : UHFInput n) (eigh : Eigh n) (s s' : UHFState n),
      s.converged = false → uhfStep inp eigh s = some s' →
        (s'.converged = true ↔
          |s'.E_elec - s.E_elec| < convergence_E ∧
            Real.sqrt ((rmscSq s'.D_total s.D_total : ℚ) : ℝ) <
              ((convergence_DM : ℚ) : ℝ))) ∧
    (∀ (n : ℕ) (inp : RHFInput n) (eigh : Eigh n) (s : RHFState n),
      s.converged = false →
        ((rhfStep inp eigh s).converged = true ↔
          |(rhfStep inp eigh s).E_scf_elec - s.E_scf_elec| < convergence_E ∧
            Real.sqrt ((rmscSq (rhfStep inp eigh s).D s.D : ℚ) : ℝ) <
              ((convergence_DM : ℚ) : ℝ))) := by
  constructor
  · intro n inp eigh s s' hconv hstep
    obtain ⟨Fab, rfl⟩ := uhfStep_inv inp eigh s s' hstep
    have hc : (uhfPost inp eigh s Fab).converged =
        if uhfTestPass inp eigh s Fab then true else s.converged := rfl
    rw [hc, hconv]
    by_cases ht : uhfTestPass inp eigh s Fab
    · rw [if_pos ht]
      exact ⟨fun _ => (uhfTestPass_iff inp eigh s Fab).mp ht, fun _ => rfl⟩
    · rw [if_neg ht]
      exact ⟨fun hft => absurd hft (by simp),
        fun hr => absurd ((uhfTestPass_iff inp eigh s Fab).mpr hr) ht⟩
  · intro n inp eigh s hconv
    have hc : (rhfStep inp eigh s).converged =
        if rhfTestPass inp eigh s then true else s.converged := rfl
    rw [hc, hconv]
    by_cases ht : rhfTestPass inp eigh s
    · rw [if_pos ht]
      exact ⟨fun _ => (rhfTestPass_iff inp eigh s).mp ht, fun _ => rfl⟩
    · rw [if_neg ht]
      exact ⟨fun hft => absurd hft (by simp),
        fun hr => absurd ((rhfTestPass_iff inp eigh s).mpr hr) ht⟩

/-- Witness for C2: on the all-zero 1×1 input the first UHF iteration meets
both criteria and the step reports `converged = true`. -/
theorem claim_C2_witness :
    (uhfStep inpUzero eighZero1 (uhfInit inpUzero eighZero1)).map
        UHFState.converged = some true := by
  rw [uhfInit_zero]
  have hstep := uhfStep_first inpUzero eighZero1 s0z rfl
  have hiff := claim_C2.1 1 inpUzero eighZero1 s0z _ rfl hstep
  have hE : uhfE inpUzero s0z = 0 := uhfEnergy_zeroD _ _ _
  have hD :
      (uhfPost inpUzero eighZero1 s0z (uhfF_alpha inpUzero s0z,
        uhfF_beta inpUzero s0z)).D_total = 0 := by
    show uhfPostD_alpha inpUzero eighZero1 _ +
        uhfPostD_beta inpUzero eighZero1 _ = 0
    unfold uhfPostD_alpha uhfPostD_beta
    rw [show eighZero1 (uhfF_alpha inpUzero s0z) inpUzero.S = 0 from rfl,
      show eighZero1 (uhfF_beta inpUzero s0z) inpUzero.S = 0 from rfl,
      densityMatrix_zeroC, densityMatrix_zeroC, add_zero]
  have hRHS := hiff.mpr ?_
  · rw [hstep, Option.map_some', hRHS]
  · constructor
    · show |(uhfE inpUzero s0z) - s0z.E_elec| < convergence_E
      rw [hE, show s0z.E_elec = (0 : ℚ) from rfl]
      norm_num [convergence_E]
    · rw [hD, show s0z.D_total = (0 : Mat 1) from rfl, rmscSq_self]
      norm_num [convergence_DM, Real.sqrt_zero]

/-- **C3 counterexample**.  The claim says a singular Pulay `B` matrix makes
the extrapolation report failure and the driver fall back to the raw Fock
matrix, never aborting.  In the code `np.linalg.solve` has no exception
handler: on the concrete singular history of two all-zero residuals, `diis`
fails, and a step whose histories produce that singular system aborts
(`none`) instead of falling back. -/
theorem claim_C3_counterexample :
    diis [(0 : Mat 1), 0] [0, 0] = none ∧
      uhfStep inpUzero eighZero1 sBad = none := by
  have hdet : (diisB [(0 : Mat 1), 0] [0, 0]).det = 0 := by
    rw [Matrix.det_fin_three]
    simp [diisB, frobInner]
  have h1 := diis_none_of_det_zero _ _ hdet
  refine ⟨h1, ?_⟩
  refine uhfStep_none_alpha inpUzero eighZero1 sBad (by norm_num [sBad]) ?_
  have hF : uhfF_alpha inpUzero sBad = 0 := by
    unfold uhfF_alpha uhfRawFock
    rw [show inpUzero.H = (0 : Mat 1) from rfl,
      show sBad.D_alpha = (0 : Mat 1) from rfl, uhfG_zeroD, add_zero]
  have hr : uhfResid_alpha inpUzero sBad = 0 := by
    unfold uhfResid_alpha
    rw [show sBad.D_alpha = (0 : Mat 1) from rfl, diisResidual_zeroD]
  rw [show sBad.F_list_alpha = [(0 : Mat 1)] from rfl,
    show sBad.DIIS_resid_alpha = [(0 : Mat 1)] from rfl, hF, hr]
  simpa using h1

/-- **C3 (amended)**.  A singular Pulay `B` matrix makes the `diis` linear
solve fail (`np.linalg.solve` raises `LinAlgError`), and — because the
notebook installs no handler — a failing alpha-channel extrapolation aborts
the SCF iteration instead of falling back to the raw Fock matrix. -/
theorem claim_C3_amended :
    (∀ (n : ℕ) (F_list res : List (Mat n)),
      (diisB F_list res).det = 0 → diis F_list res = none) ∧
    (∀ (n : ℕ) (inp : UHFInput n) (eigh : Eigh n) (s : UHFState n),
      1 ≤ s.iteration_num →
      diis (s.F_list_alpha ++ [uhfF_alpha inp s])
          (s.DIIS_resid_alpha ++ [uhfResid_alpha inp s]) = none →
      uhfStep inp eigh s = none) :=
  ⟨fun _ F_list res h => diis_none_of_det_zero F_list res h,
   fun _ inp eigh s h1 ha => uhfStep_none_alpha inp eigh s h1 ha⟩

/-- Witness for the amended C3, on a 2×2 system for both conjuncts. -/
theorem claim_C3_amended_witness :
    diis [(0 : Mat 2), 0] [0, 0] = none ∧
      uhfStep inpUzero2 eighZero2 sBad2 = none := by
  have hdet : (diisB [(0 : Mat 2), 0] [0, 0]).det = 0 := by
    rw [Matrix.det_fin_three]
    simp [diisB, frobInner]
  have h1 := claim_C3_amended.1 2 [0, 0] [0, 0] hdet
  refine ⟨h1, ?_⟩
  refine claim_C3_amended.2 2 inpUzero2 eighZero2 sBad2 (by norm_num [sBad2]) ?_
  have hF : uhfF_alpha inpUzero2 sBad2 = 0 := by
    unfold uhfF_alpha uhfRawFock
    rw [show inpUzero2.H = (0 : Mat 2) from rfl,
      show sBad2.D_alpha = (0 : Mat 2) from rfl, uhfG_zeroD, add_zero]
  have hr : uhfResid_alpha inpUzero2 sBad2 = 0 := by
    unfold uhfResid_alpha
    rw [show sBad2.D_alpha = (0 : Mat 2) from rfl, diisResidual_zeroD]
  rw [show sBad2.F_list_alpha = [(0 : Mat 2)] from rfl,
    show sBad2.DIIS_resid_alpha = [(0 : Mat 2)] from rfl, hF, hr]
  simpa using h1

/-- **C4**.  The UHF step computes the electronic energy from the
pre-extrapolation Fock matrices and the entering (pre-rebuild) densities as
`0.5 * Σ(D_total∘H + D_alpha∘F_alpha + D_beta∘F_beta)`; the RHF step
computes the single-channel analogue without the `0.5` factor,
`Σ(D∘(H + F))` (its `D` being the freshly rebuilt density, there being no
extrapolation on that path). -/
theorem claim_C4 :
    (∀ (n : ℕ) (inp : UHFInput n) (eigh : Eigh n) (s s' : UHFState n),
      uhfStep inp eigh s = some s' →
        s'.E_elec =
          (1 / 2) * ∑ i, ∑ j,
            (s.D_total i j * inp.H i j +
              s.D_alpha i j * uhfRawFock inp.H inp.eri s.D_alpha i j +
              s.D_beta i j * uhfRawFock inp.H inp.eri s.D_beta i j)) ∧
    (∀ (n : ℕ) (inp : RHFInput n) (eigh : Eigh n) (s : RHFState n),
      (rhfStep inp eigh s).E_scf_elec =
        ∑ i, ∑ j, (rhfStep inp eigh s).D i j *
          (inp.H i j + (inp.H + rhfG inp.eriVec s.D) i j)) := by
  constructor
  · intro n inp eigh s s' hstep
    obtain ⟨Fab, rfl⟩ := uhfStep_inv inp eigh s s' hstep
    rfl
  · intro n inp eigh s
    rfl

/-- Witness for C4 on the all-zero 1×1 input's first iteration. -/
theorem claim_C4_witness :
    (uhfPost inpUzero eighZero1 s0z
        (uhfF_alpha inpUzero s0z, uhfF_beta inpUzero s0z)).E_elec =
      (1 / 2) * ∑ i, ∑ j,
        (s0z.D_total i j * inpUzero.H i j +
          s0z.D_alpha i j * uhfRawFock inpUzero.H inpUzero.eri s0z.D_alpha i j +
          s0z.D_beta i j * uhfRawFock inpUzero.H inpUzero.eri s0z.D_beta i j) :=
  claim_C4.1 1 inpUzero eighZero1 s0z _
    (uhfStep_first inpUzero eighZero1 s0z rfl)

/-- **C7**.  In the first iteration (history shorter than 2 entries) the DIIS
call is skipped and the rebuilt densities come from diagonalizing the raw
Fock matrices; and `diis` on a history of length 1 is a no-op returning the
single trial Fock matrix unchanged. -/
theorem claim_C7 :
    (∀ (n : ℕ) (inp : UHFInput n) (eigh : Eigh n) (s s' : UHFState n),
      s.iteration_num = 0 → uhfStep inp eigh s = some s' →
        s'.D_alpha =
            densityMatrix (eigh (uhfF_alpha inp s) inp.S)
              inp.num_elec_alpha ∧
          s'.D_beta =
            densityMatrix (eigh (uhfF_beta inp s) inp.S)
              inp.num_elec_beta) ∧
    (∀ (n : ℕ) (F r : Mat n), diis [F] [r] = some F) := by
  constructor
  · intro n inp eigh s s' h0 hstep
    rw [uhfStep_first inp eigh s h0, Option.some_inj] at hstep
    rw [← hstep]
    exact ⟨rfl, rfl⟩
  · exact fun n F r => diis_singleton F r

/-- Witness for C7: the first iteration on `inpU5`, and the singleton-history
no-op at `[[1]]`. -/
theorem claim_C7_witness :
    (uhfPost inpU5 eighOne1 (uhfInit inpU5 eighOne1)
        (uhfF_alpha inpU5 (uhfInit inpU5 eighOne1),
          uhfF_beta inpU5 (uhfInit inpU5 eighOne1))).D_alpha =
      densityMatrix
        (eighOne1 (uhfF_alpha inpU5 (uhfInit inpU5 eighOne1)) inpU5.S)
        inpU5.num_elec_alpha ∧
    diis [matOne1] [matOne1] = some matOne1 := by
  constructor
  · exact (claim_C7.1 1 inpU5 eighOne1 (uhfInit inpU5 eighOne1) _ rfl
      (uhfStep_first inpU5 eighOne1 _ rfl)).1
  · exact claim_C7.2 1 matOne1 matOne1

/-- **C6 counterexample**.  The claim says *every* SCF driver seeds its
starting density from a core-Hamiltonian guess.  The RHF driver does not: it
sets `D = np.zeros((num_ao, num_ao))`, which differs from the core-guess
density of its own 1×1 input. -/
theorem claim_C6_counterexample :
    (rhfInit inpR5).D = 0 ∧
      densityMatrix (eighOne1 inpR5.H inpR5.S) inpR5.num_elec_alpha ≠
        (rhfInit inpR5).D := by
  refine ⟨rfl, ?_⟩
  intro h
  have h0 : densityMatrix matOne1 1 0 0 = (0 : ℚ) := by
    have hc := Matrix.ext_iff.mpr h 0 0
    simpa using hc
  have h1 : densityMatrix matOne1 1 0 0 = (1 : ℚ) := by
    simp [densityMatrix, matOne1, Fin.sum_univ_one]
  rw [h1] at h0
  norm_num at h0

/-- **C6 (amended)**.  The UHF driver seeds both channel densities from the
core-Hamiltonian guess — diagonalize `H` against `S` once and fill the
lowest `num_elec_alpha` (resp. `num_elec_beta`) orbitals per channel —
before the first iteration (iteration counter 0, not converged); the RHF
driver instead seeds its density to the zero matrix. -/
theorem claim_C6_amended :
    (∀ (n : ℕ) (inp : UHFInput n) (eigh : Eigh n),
      (uhfInit inp eigh).D_alpha =
          densityMatrix (eigh inp.H inp.S) inp.num_elec_alpha ∧
        (uhfInit inp eigh).D_beta =
          densityMatrix (eigh inp.H inp.S) inp.num_elec_beta ∧
        (uhfInit inp eigh).iteration_num = 0 ∧
        (uhfInit inp eigh).converged = false) ∧
    (∀ (n : ℕ) (inp : RHFInput n), (rhfInit inp).D = 0) :=
  ⟨fun _ _ _ => ⟨rfl, rfl, rfl, rfl⟩, fun _ _ => rfl⟩

/-- Canonical pair index is symmetric in its arguments. -/
theorem idx2_comm (i j : ℕ) : idx2 i j = idx2 j i := by
  unfold idx2
  rcases Nat.lt_trichotomy i j with h | h | h
  · rw [if_neg (by omega), if_pos (by omega)]
  · subst h
    rfl
  · rw [if_pos (by omega), if_neg (by omega)]

/-- The compressed 4-index is invariant under swapping the two pairs. -/
theorem idx4_swap_pairs (a b c d : ℕ) : idx4 a b c d = idx4 c d a b :=
  idx2_comm _ _

/-- The compressed 4-index is invariant under swapping within the bra
pair. -/
theorem idx4_swap_bra (a b c d : ℕ) : idx4 a b c d = idx4 b a c d := by
  unfold idx4
  rw [idx2_comm a b]

/-- **C9**.  Every density matrix produced by the density builder is
symmetric; the UHF Fock matrix built from a symmetric density and an
8-fold-symmetric dense tensor is symmetric; and the RHF Fock matrix built
from a symmetric density through the compressed store is symmetric (the
`idx4` lookup is itself 8-fold symmetric). -/
theorem claim_C9 :
    (∀ (n : ℕ) (C : Mat n) (N : ℕ), MatSymm (densityMatrix C N)) ∧
    (∀ (n : ℕ) (H : Mat n) (eri : ERI n) (D : Mat n),
      MatSymm H → ERISymm eri → MatSymm D →
        MatSymm (uhfRawFock H eri D)) ∧
    (∀ (n : ℕ) (H : Mat n) (eriVec : ℕ → ℚ) (D : Mat n),
      MatSymm H → MatSymm D → MatSymm (H + rhfG eriVec D)) := by
  refine ⟨?_, ?_, ?_⟩
  · intro n C N i j
    unfold densityMatrix
    simp only [Matrix.of_apply]
    refine Finset.sum_congr rfl fun k _ => ?_
    by_cases hk : (k : ℕ) < N <;> simp [hk, mul_comm]
  · intro n H eri D hH hE hD i j
    unfold uhfRawFock
    simp only [Matrix.add_apply]
    rw [hH i j]
    congr 1
    unfold uhfG
    simp only [Matrix.of_apply, mul_sub, Finset.sum_sub_distrib]
    congr 1
    · refine Finset.sum_congr rfl fun k _ => Finset.sum_congr rfl fun l _ => ?_
      rw [(hE i j k l).1]
    · rw [Finset.sum_comm]
      refine Finset.sum_congr rfl fun x _ => Finset.sum_congr rfl fun y _ => ?_
      rw [hD y x, (hE i y j x).2.2]
  · intro n H eriVec D hH hD i j
    simp only [Matrix.add_apply]
    rw [hH i j]
    congr 1
    unfold rhfG
    simp only [Matrix.of_apply, mul_sub, Finset.sum_sub_distrib]
    congr 1
    · refine Finset.sum_congr rfl fun k _ => Finset.sum_congr rfl fun l _ => ?_
      rw [show idx4 j i k l = idx4 i j k l from idx4_swap_bra j i k l]
    · rw [Finset.sum_comm]
      refine Finset.sum_congr rfl fun x _ => Finset.sum_congr rfl fun y _ => ?_
      rw [hD y x, show idx4 i y j x = idx4 j x i y from idx4_swap_pairs i y j x]

/-- Witness for C9: a symmetric 2×2 Hamiltonian, density, and constant
tensor give a Fock matrix with equal off-diagonal entries. -/
theorem claim_C9_witness :
    uhfRawFock matH2 eriTwo matD2 0 1 = uhfRawFock matH2 eriTwo matD2 1 0 :=
  claim_C9.2.1 2 matH2 eriTwo matD2 (by decide) (by decide) (by decide) 0 1

/-- **C10**.  The terminal flags are not mutually exclusive: when a step
lands exactly on the iteration ceiling and the dual convergence test passes
in that same iteration, both `converged` and `exceeded_iterations` are set
(the two trailing `if` statements are independent). -/
theorem claim_C10 {n : ℕ} (inp : UHFInput n) (eigh : Eigh n)
    (s s' : UHFState n) (hstep : uhfStep inp eigh s = some s')
    (hmax : s'.iteration_num = iteration_max)
    (hE : |s'.E_elec - s.E_elec| < convergence_E)
    (hD : Real.sqrt ((rmscSq s'.D_total s.D_total : ℚ) : ℝ) <
        ((convergence_DM : ℚ) : ℝ)) :
    s'.converged = true ∧ s'.exceeded_iterations = true := by
  obtain ⟨Fab, rfl⟩ := uhfStep_inv inp eigh s s' hstep
  have ht : uhfTestPass inp eigh s Fab :=
    (uhfTestPass_iff inp eigh s Fab).mpr ⟨hE, hD⟩
  constructor
  · show (if uhfTestPass inp eigh s Fab then true else s.converged) = true
    rw [if_pos ht]
  · show (if s.iteration_num + 1 = iteration_max then true
        else s.exceeded_iterations) = true
    rw [if_pos (show s.iteration_num + 1 = iteration_max from hmax)]

/-- Witness for C10: stepping an all-zero state sitting at iteration 99 (the
ceiling being 100) on the all-zero input passes the convergence test in the
ceiling iteration, and both flags come out true. -/
theorem claim_C10_witness :
    (uhfStep inpUzero eighZero1 s99).map
        (fun t => (t.converged, t.exceeded_iterations)) = some (true, true) := by
  have hstep := uhfStep_diis inpUzero eighZero1 s99 (by norm_num [s99])
    (uhfF_alpha inpUzero s99) (uhfF_beta inpUzero s99)
    (diis_singleton _ _) (diis_singleton _ _)
  have hE0 : uhfE inpUzero s99 = 0 := uhfEnergy_zeroD _ _ _
  have hDt :
      (uhfPost inpUzero eighZero1 s99
        (uhfF_alpha inpUzero s99, uhfF_beta inpUzero s99)).D_total = 0 := by
    show uhfPostD_alpha inpUzero eighZero1 _ +
        uhfPostD_beta inpUzero eighZero1 _ = 0
    unfold uhfPostD_alpha uhfPostD_beta
    rw [show eighZero1 (uhfF_alpha inpUzero s99) inpUzero.S = 0 from rfl,
      show eighZero1 (uhfF_beta inpUzero s99) inpUzero.S = 0 from rfl,
      densityMatrix_zeroC, densityMatrix_zeroC, add_zero]
  have hflags := claim_C10 inpUzero eighZero1 s99 _ hstep rfl ?_ ?_
  · rw [hstep, Option.map_some', hflags.1, hflags.2]
  · rw [show (uhfPost inpUzero eighZero1 s99
        (uhfF_alpha inpUzero s99, uhfF_beta inpUzero s99)).E_elec =
          uhfE inpUzero s99 from rfl, hE0,
      show s99.E_elec = (0 : ℚ) from rfl]
    norm_num [convergence_E]
  · rw [hDt, show s99.D_total = (0 : Mat 1) from rfl, rmscSq_self]
    norm_num [convergence_DM, Real.sqrt_zero]

/-- Product of 1×1 all-ones matrices. -/
theorem matOne1_mul : matOne1 * matOne1 = matOne1 := by
  ext i j
  simp [Matrix.mul_apply, matOne1, Fin.sum_univ_one]

/-- Sum of two 1×1 all-ones matrices. -/
theorem matOne1_add : matOne1 + matOne1 = matTwo1 := by
  ext i j
  simp [matOne1, matTwo1]
  norm_num

/-- One occupied orbital of the coefficient matrix `[[1]]` rebuilds
`[[1]]`. -/
theorem densityMatrix_matOne1 : densityMatrix matOne1 1 = matOne1 := by
  ext i j
  simp [densityMatrix, matOne1, Fin.sum_univ_one]

/-- `G` of the all-ones 1×1 tensor and density: `1·(2·1 − 1) = 1`. -/
theorem uhfG_eriOne_one : uhfG eriOne matOne1 = matOne1 := by
  ext i j
  simp [uhfG, eriOne, matOne1, Fin.sum_univ_one]
  norm_num

/-- `rhfG` of the zero density vanishes. -/
theorem rhfG_zeroD {n : ℕ} (eriVec : ℕ → ℚ) : rhfG eriVec (0 : Mat n) = 0 := by
  ext i j
  simp [rhfG]

/-- The core guess on `inpU5` with the `eighOne1` oracle. -/
theorem uhfInit5_eval : uhfInit inpU5 eighOne1 = u5init := by
  unfold uhfInit u5init
  simp only [show eighOne1 inpU5.H inpU5.S = matOne1 from rfl,
    show inpU5.num_elec_alpha = 1 from rfl,
    show inpU5.num_elec_beta = 1 from rfl,
    densityMatrix_matOne1, matOne1_add]

/-- The raw alpha Fock matrix of the first `inpU5` iteration. -/
theorem uhfF5_init : uhfF_alpha inpU5 u5init = matOne1 := by
  unfold uhfF_alpha uhfRawFock
  rw [show u5init.D_alpha = matOne1 from rfl,
    show inpU5.eri = eriOne from rfl, uhfG_eriOne_one,
    show inpU5.H = (0 : Mat 1) from rfl, zero_add]

/-- The raw beta Fock matrix of the first `inpU5` iteration. -/
theorem uhfF5beta_init : uhfF_beta inpU5 u5init = matOne1 := by
  unfold uhfF_beta uhfRawFock
  rw [show u5init.D_beta = matOne1 from rfl,
    show inpU5.eri = eriOne from rfl, uhfG_eriOne_one,
    show inpU5.H = (0 : Mat 1) from rfl, zero_add]

/-- First-iteration electronic energy on `inpU5`:
`0.5·(2·0 + 1·1 + 1·1) = 1`. -/
theorem uhfE5 : uhfE inpU5 u5init = 1 := by
  unfold uhfE uhfEnergy
  rw [uhfF5_init, uhfF5beta_init, show u5init.D_total = matTwo1 from rfl,
    show u5init.D_alpha = matOne1 from rfl,
    show u5init.D_beta = matOne1 from rfl,
    show inpU5.H = (0 : Mat 1) from rfl]
  simp [matTwo1, matOne1, Fin.sum_univ_one]
  norm_num

/-- 1×1 commutator residual with unit overlap and orthogonalizer. -/
theorem residOne : diisResidual (1 : Mat 1) (1 : Mat 1) matOne1 matOne1 = 0 := by
  unfold diisResidual
  simp [matOne1_mul]

/-- Alpha residual of the first `inpU5` iteration vanishes. -/
theorem uhfResid5_init : uhfResid_alpha inpU5 u5init = 0 := by
  unfold uhfResid_alpha
  rw [uhfF5_init, show u5init.D_alpha = matOne1 from rfl,
    show inpU5.A = (1 : Mat 1) from rfl, show inpU5.S = (1 : Mat 1) from rfl]
  exact residOne

/-- Beta residual of the first `inpU5` iteration vanishes. -/
theorem uhfResid5beta_init : uhfResid_beta inpU5 u5init = 0 := by
  unfold uhfResid_beta
  rw [uhfF5beta_init, show u5init.D_beta = matOne1 from rfl,
    show inpU5.A = (1 : Mat 1) from rfl, show inpU5.S = (1 : Mat 1) from rfl]
  exact residOne

/-- Rebuilt alpha density of the first `inpU5` iteration. -/
theorem postD5a :
    uhfPostD_alpha inpU5 eighOne1 (uhfF_alpha inpU5 u5init) = matOne1 := by
  unfold uhfPostD_alpha
  rw [show eighOne1 (uhfF_alpha inpU5 u5init) inpU5.S = matOne1 from rfl]
  exact densityMatrix_matOne1

/-- Rebuilt beta density of the first `inpU5` iteration. -/
theorem postD5b :
    uhfPostD_beta inpU5 eighOne1 (uhfF_beta inpU5 u5init) = matOne1 := by
  unfold uhfPostD_beta
  rw [show eighOne1 (uhfF_beta inpU5 u5init) inpU5.S = matOne1 from rfl]
  exact densityMatrix_matOne1

/-- The first `inpU5` iteration does not converge: `ΔE = 1` is far above
`1e-9`. -/
theorem step5_test_false :
    ¬uhfTestPass inpU5 eighOne1 u5init
      (uhfF_alpha inpU5 u5init, uhfF_beta inpU5 u5init) := by
  intro ht
  have h1 := ht.1
  rw [uhfE5, show u5init.E_elec = (0 : ℚ) from rfl] at h1
  norm_num [convergence_E] at h1

/-- The full first iteration on `inpU5`. -/
theorem step5_eval : uhfStep inpU5 eighOne1 u5init = some u5s1 := by
  rw [uhfStep_first inpU5 eighOne1 u5init rfl, Option.some_inj]
  unfold uhfPost u5s1
  rw [UHFState.mk.injEq]
  refine ⟨rfl, uhfE5, ?_, ?_, ?_, ?_, ?_, ?_, ?_, ?_, ?_, ?_, ?_, ?_⟩
  · rw [if_neg step5_test_false]
    rfl
  · exact postD5a
  · exact postD5b
  · rw [postD5a, postD5b, matOne1_add]
  · rw [show u5init.F_list_alpha = ([] : List (Mat 1)) from rfl, uhfF5_init,
      List.nil_append]
  · rw [show u5init.F_list_beta = ([] : List (Mat 1)) from rfl, uhfF5beta_init,
      List.nil_append]
  · rw [show u5init.DIIS_resid_alpha = ([] : List (Mat 1)) from rfl,
      uhfResid5_init, List.nil_append]
  · rw [show u5init.DIIS_resid_beta = ([] : List (Mat 1)) from rfl,
      uhfResid5beta_init, List.nil_append]
  · rw [uhfE5, show u5init.E_elec = (0 : ℚ) from rfl]
    norm_num
  · rw [postD5a, postD5b, matOne1_add,
      show u5init.D_total = matTwo1 from rfl, rmscSq_self]
  · rw [if_neg step5_test_false]
    rfl
  · rw [if_neg (by decide : ¬u5init.iteration_num + 1 = iteration_max)]
    rfl

/-- Second-iteration raw alpha Fock matrix on `inpU5` (density unchanged). -/
theorem uhfF5_s1 : uhfF_alpha inpU5 u5s1 = matOne1 := by
  unfold uhfF_alpha uhfRawFock
  rw [show u5s1.D_alpha = matOne1 from rfl,
    show inpU5.eri = eriOne from rfl, uhfG_eriOne_one,
    show inpU5.H = (0 : Mat 1) from rfl, zero_add]

/-- Second-iteration alpha residual on `inpU5` vanishes. -/
theorem uhfResid5_s1 : uhfResid_alpha inpU5 u5s1 = 0 := by
  unfold uhfResid_alpha
  rw [uhfF5_s1, show u5s1.D_alpha = matOne1 from rfl,
    show inpU5.A = (1 : Mat 1) from rfl, show inpU5.S = (1 : Mat 1) from rfl]
  exact residOne

/-- The second `inpU5` iteration aborts: both residuals in the history are
zero, the Pulay matrix is singular, `np.linalg.solve` raises. -/
theorem step5_none : uhfStep inpU5 eighOne1 u5s1 = none := by
  refine uhfStep_none_alpha inpU5 eighOne1 u5s1 (by norm_num [u5s1]) ?_
  rw [show u5s1.F_list_alpha = [matOne1] from rfl,
    show u5s1.DIIS_resid_alpha = [(0 : Mat 1)] from rfl, uhfF5_s1,
    uhfResid5_s1]
  have hdet : (diisB [matOne1, matOne1] [0, 0]).det = 0 := by
    rw [Matrix.det_fin_three]
    simp [diisB, frobInner]
  simpa using diis_none_of_det_zero _ _ hdet

/-- Unfolding equation of the fueled while loop. -/
theorem uhfLoop_succ {n : ℕ} (inp : UHFInput n) (eigh : Eigh n) (fuel : ℕ)
    (s : UHFState n) :
    uhfLoop inp eigh (fuel + 1) s =
      if s.converged = false ∧ s.exceeded_iterations = false then
        (uhfStep inp eigh s).bind (uhfLoop inp eigh fuel)
      else some s := rfl

/-- Out-of-fuel equation of the fueled while loop. -/
theorem uhfLoop_zero {n : ℕ} (inp : UHFInput n) (eigh : Eigh n)
    (s : UHFState n) : uhfLoop inp eigh 0 s = some s := rfl

/-- If the remaining fuel exactly covers the distance to the iteration
ceiling (and the state has not silently passed the ceiling), a loop that
returns normally returns with a terminal flag set and without overrunning
the ceiling. -/
theorem uhfLoop_terminal {n : ℕ} (inp : UHFInput n) (eigh : Eigh n) :
    ∀ (fuel : ℕ) (s s' : UHFState n),
      s.iteration_num + fuel = iteration_max →
      (s.iteration_num ≠ iteration_max ∨ s.exceeded_iterations = true) →
      uhfLoop inp eigh fuel s = some s' →
      (s'.converged = true ∨ s'.exceeded_iterations = true) ∧
        s'.iteration_num ≤ iteration_max := by
  intro fuel
  induction fuel with
  | zero =>
    intro s s' hsum hside hloop
    rw [uhfLoop_zero, Option.some_inj] at hloop
    subst hloop
    rcases hside with h | h
    · exact absurd (by omega : s.iteration_num = iteration_max) h
    · exact ⟨Or.inr h, by omega⟩
  | succ fuel ih =>
    intro s s' hsum hside hloop
    rw [uhfLoop_succ] at hloop
    by_cases hcond : s.converged = false ∧ s.exceeded_iterations = false
    · rw [if_pos hcond] at hloop
      rcases hstep : uhfStep inp eigh s with _ | t
      · rw [hstep] at hloop
        simp at hloop
      · rw [hstep] at hloop
        rw [show (some t).bind (uhfLoop inp eigh fuel) =
            uhfLoop inp eigh fuel t from rfl] at hloop
        obtain ⟨Fab, rfl⟩ := uhfStep_inv inp eigh s t hstep
        refine ih _ s' ?_ ?_ hloop
        · show s.iteration_num + 1 + fuel = iteration_max
          omega
        · by_cases hm : s.iteration_num + 1 = iteration_max
          · right
            show (if s.iteration_num + 1 = iteration_max then true
                else s.exceeded_iterations) = true
            rw [if_pos hm]
          · left
            exact hm
    · rw [if_neg hcond, Option.some_inj] at hloop
      subst hloop
      constructor
      · by_cases hc : s.converged = true
        · exact Or.inl hc
        · by_cases he : s.exceeded_iterations = true
          · exact Or.inr he
          · exact absurd ⟨by simpa using hc, by simpa using he⟩ hcond
      · omega

/-- **C5 counterexample**.  With `N_alpha = N_beta = 1` and both UHF channels
seeded with the identical core-guess density `[[1]]`, on the 1×1 system with
`H = 0`, `S = [[1]]` and unit integrals (the RHF input holds the same
integrals through the compressed store), the first UHF iteration reports
electronic energy `1` while the first RHF iteration reports `0`: the
unrestricted path does not reduce to the restricted path step by step. -/
theorem claim_C5_counterexample :
    (uhfInit inpU5 eighOne1).D_alpha = (uhfInit inpU5 eighOne1).D_beta ∧
      inpU5.num_elec_alpha = inpU5.num_elec_beta ∧
      (uhfStep inpU5 eighOne1 (uhfInit inpU5 eighOne1)).map UHFState.E_elec =
        some 1 ∧
      (rhfStep inpR5 eighOne1 (rhfInit inpR5)).E_scf_elec = 0 ∧
      (1 : ℚ) ≠ 0 := by
  refine ⟨rfl, rfl, ?_, ?_, by norm_num⟩
  · rw [uhfInit5_eval, step5_eval, Option.map_some']
    rw [show u5s1.E_elec = (1 : ℚ) from rfl]
  · show rhfE' inpR5 eighOne1 (rhfInit inpR5) = 0
    have hF : rhfF inpR5 (rhfInit inpR5) = 0 := by
      unfold rhfF
      rw [show (rhfInit inpR5).D = (0 : Mat 1) from rfl, rhfG_zeroD,
        show inpR5.H = (0 : Mat 1) from rfl, add_zero]
    unfold rhfE'
    rw [hF]
    simp [show inpR5.H = (0 : Mat 1) from rfl]

/-- **C5 (amended)**.  When the two UHF channels hold the same density, one
UHF iteration's Fock build does reduce to the restricted build — `F_alpha =
F_beta` equals the restricted Fock matrix built from the shared density
(matching integral stores), and the UHF energy expression collapses to the
restricted formula `Σ D∘(H+F)` evaluated at the entering shared density —
and a successful step keeps the two channels identical (same eigensolver,
equal occupied counts, equal DIIS histories).  The two *drivers* still
disagree per iteration: the RHF driver evaluates its energy at the
post-rebuild density, seeds `D = 0` instead of a core guess, and never
extrapolates, so per-step energy equality fails (see the counterexample). -/
theorem claim_C5_amended :
    (∀ (n : ℕ) (inpU : UHFInput n) (inpR : RHFInput n) (s : UHFState n),
      inpU.H = inpR.H →
      (∀ i j k l : Fin n, inpU.eri i j k l = inpR.eriVec (idx4 i j k l)) →
      s.D_alpha = s.D_beta → s.D_total = s.D_alpha + s.D_beta →
        uhfF_alpha inpU s = uhfF_beta inpU s ∧
          uhfF_alpha inpU s = inpR.H + rhfG inpR.eriVec s.D_alpha ∧
          uhfE inpU s =
            ∑ i, ∑ j, s.D_alpha i j *
              (inpU.H i j + uhfF_alpha inpU s i j)) ∧
    (∀ (n : ℕ) (inp : UHFInput n) (eigh : Eigh n) (s s' : UHFState n),
      inp.num_elec_alpha = inp.num_elec_beta →
      s.D_alpha = s.D_beta → s.F_list_alpha = s.F_list_beta →
      s.DIIS_resid_alpha = s.DIIS_resid_beta →
      uhfStep inp eigh s = some s' →
        s'.D_alpha = s'.D_beta ∧ s'.F_list_alpha = s'.F_list_beta ∧
          s'.DIIS_resid_alpha = s'.DIIS_resid_beta) := by
  constructor
  · intro n inpU inpR s hH heri hD hDt
    have hFab : uhfF_alpha inpU s = uhfF_beta inpU s := by
      unfold uhfF_alpha uhfF_beta uhfRawFock
      rw [hD]
    have hG : uhfG inpU.eri s.D_alpha = rhfG inpR.eriVec s.D_alpha := by
      ext i j
      unfold uhfG rhfG
      simp only [Matrix.of_apply]
      exact Finset.sum_congr rfl fun k _ => Finset.sum_congr rfl fun l _ => by
        rw [heri i j k l, heri i k j l]
    refine ⟨hFab, ?_, ?_⟩
    · unfold uhfF_alpha uhfRawFock
      rw [hH, hG]
    · unfold uhfE uhfEnergy
      rw [hDt, ← hD, ← hFab]
      rw [Finset.mul_sum]
      refine Finset.sum_congr rfl fun i _ => ?_
      rw [Finset.mul_sum]
      refine Finset.sum_congr rfl fun j _ => ?_
      simp only [Matrix.add_apply]
      ring
  · intro n inp eigh s s' hN hD hFl hRl h
    have hF : uhfF_alpha inp s = uhfF_beta inp s := by
      unfold uhfF_alpha uhfF_beta uhfRawFock
      rw [hD]
    have hr : uhfResid_alpha inp s = uhfResid_beta inp s := by
      unfold uhfResid_alpha uhfResid_beta
      rw [hD, hF]
    unfold uhfStep at h
    by_cases h2 : 2 ≤ s.iteration_num + 1
    · rw [if_pos h2, hFl, hRl, hF, hr] at h
      rcases hd : diis (s.F_list_beta ++ [uhfF_beta inp s])
          (s.DIIS_resid_beta ++ [uhfResid_beta inp s]) with _ | Fc
      · rw [hd] at h
        simp at h
      · rw [hd] at h
        rw [show (match some Fc, some Fc with
            | some Fa, some Fb => some ((Fa, Fb) : Mat n × Mat n)
            | _, _ => none) = some (Fc, Fc) from rfl] at h
        rw [Option.map_some', Option.some_inj] at h
        rw [← h]
        refine ⟨?_, ?_, ?_⟩
        · show uhfPostD_alpha inp eigh Fc = uhfPostD_beta inp eigh Fc
          unfold uhfPostD_alpha uhfPostD_beta
          rw [hN]
        · show s.F_list_alpha ++ [uhfF_alpha inp s] =
            s.F_list_beta ++ [uhfF_beta inp s]
          rw [hFl, hF]
        · show s.DIIS_resid_alpha ++ [uhfResid_alpha inp s] =
            s.DIIS_resid_beta ++ [uhfResid_beta inp s]
          rw [hRl, hr]
    · rw [if_neg h2] at h
      rw [Option.map_some', Option.some_inj] at h
      rw [← h]
      refine ⟨?_, ?_, ?_⟩
      · show uhfPostD_alpha inp eigh (uhfF_alpha inp s) =
          uhfPostD_beta inp eigh (uhfF_beta inp s)
        unfold uhfPostD_alpha uhfPostD_beta
        rw [hN, hF]
      · show s.F_list_alpha ++ [uhfF_alpha inp s] =
          s.F_list_beta ++ [uhfF_beta inp s]
        rw [hFl, hF]
      · show s.DIIS_resid_alpha ++ [uhfResid_alpha inp s] =
          s.DIIS_resid_beta ++ [uhfResid_beta inp s]
        rw [hRl, hr]

/-- Witness for the amended C5: both conjuncts exercised on the concrete
`inpU5`/`inpR5` system and its first iteration. -/
theorem claim_C5_amended_witness :
    (uhfF_alpha inpU5 u5init = uhfF_beta inpU5 u5init ∧
      uhfF_alpha inpU5 u5init = inpR5.H + rhfG inpR5.eriVec u5init.D_alpha ∧
      uhfE inpU5 u5init =
        ∑ i, ∑ j, u5init.D_alpha i j *
          (inpU5.H i j + uhfF_alpha inpU5 u5init i j)) ∧
    (u5s1.D_alpha = u5s1.D_beta ∧ u5s1.F_list_alpha = u5s1.F_list_beta ∧
      u5s1.DIIS_resid_alpha = u5s1.DIIS_resid_beta) := by
  constructor
  · exact claim_C5_amended.1 1 inpU5 inpR5 u5init rfl (fun _ _ _ _ => rfl) rfl
      matOne1_add.symm
  · exact claim_C5_amended.2 1 inpU5 eighOne1 u5init u5s1 rfl rfl rfl rfl
      step5_eval

/-- **C8 counterexample**.  The claim says the SCF loop always terminates
with a reported status, never a crash.  On the concrete 1×1 system `inpU5`
(started from its own core guess) the convergence test fails in iteration 1,
and iteration 2 aborts inside `diis` (singular Pulay matrix from two
identical zero residuals): the loop ends as an uncaught exception (`none`),
not as `EXCEEDED_ITERATIONS`. -/
theorem claim_C8_counterexample :
    uhfLoop inpU5 eighOne1 iteration_max (uhfInit inpU5 eighOne1) = none := by
  rw [uhfInit5_eval, show iteration_max = 99 + 1 from rfl, uhfLoop_succ,
    if_pos ⟨rfl, rfl⟩, step5_eval, Option.some_bind,
    show (99 : ℕ) = 98 + 1 from rfl, uhfLoop_succ, if_pos ⟨rfl, rfl⟩,
    step5_none, Option.none_bind]

/-- **C8 (amended)**.  Provided no DIIS solve fails (the loop returns
normally rather than raising), a run started at iteration 0 with fuel
`iteration_max` ends within the ceiling with a terminal flag set, and a
non-converged normal exit always reports `exceeded_iterations = true` — no
silent fall-through.  A singular DIIS system instead aborts the run before
the ceiling (see the counterexample). -/
theorem claim_C8_amended :
    ∀ (n : ℕ) (inp : UHFInput n) (eigh : Eigh n) (s0 s' : UHFState n),
      s0.iteration_num = 0 →
      uhfLoop inp eigh iteration_max s0 = some s' →
        (s'.converged = true ∨ s'.exceeded_iterations = true) ∧
          s'.iteration_num ≤ iteration_max ∧
          (s'.converged = false → s'.exceeded_iterations = true) := by
  intro n inp eigh s0 s' h0 hloop
  have h := uhfLoop_terminal inp eigh iteration_max s0 s' (by omega)
    (Or.inl (by rw [h0]; norm_num [iteration_max])) hloop
  refine ⟨h.1, h.2, fun hcf => ?_⟩
  rcases h.1 with hc | he
  · rw [hcf] at hc
    exact absurd hc (by norm_num)
  · exact he

/-- The dual test passes on the all-zero system's first iteration. -/
theorem s0z_test_pass :
    uhfTestPass inpUzero eighZero1 s0z
      (uhfF_alpha inpUzero s0z, uhfF_beta inpUzero s0z) := by
  constructor
  · rw [show uhfE inpUzero s0z = 0 from uhfEnergy_zeroD _ _ _,
      show s0z.E_elec = (0 : ℚ) from rfl]
    norm_num [convergence_E]
  · have hD : uhfPostD_alpha inpUzero eighZero1 (uhfF_alpha inpUzero s0z) +
        uhfPostD_beta inpUzero eighZero1 (uhfF_beta inpUzero s0z) =
        (0 : Mat 1) := by
      unfold uhfPostD_alpha uhfPostD_beta
      rw [show eighZero1 (uhfF_alpha inpUzero s0z) inpUzero.S = 0 from rfl,
        show eighZero1 (uhfF_beta inpUzero s0z) inpUzero.S = 0 from rfl,
        densityMatrix_zeroC, densityMatrix_zeroC, add_zero]
    show sqrtLtQ
      (rmscSq (uhfPostD_alpha inpUzero eighZero1 (uhfF_alpha inpUzero s0z) +
        uhfPostD_beta inpUzero eighZero1 (uhfF_beta inpUzero s0z))
        s0z.D_total) convergence_DM
    rw [hD, show s0z.D_total = (0 : Mat 1) from rfl, rmscSq_self]
    exact ⟨by norm_num [convergence_DM], by norm_num [convergence_DM]⟩

/-- The all-zero run converges in its first iteration and the loop returns
that state. -/
theorem uhfLoop_zero_run :
    uhfLoop inpUzero eighZero1 iteration_max s0z =
      some (uhfPost inpUzero eighZero1 s0z
        (uhfF_alpha inpUzero s0z, uhfF_beta inpUzero s0z)) := by
  have hpc : (uhfPost inpUzero eighZero1 s0z
      (uhfF_alpha inpUzero s0z, uhfF_beta inpUzero s0z)).converged = true := by
    show (if uhfTestPass inpUzero eighZero1 s0z
        (uhfF_alpha inpUzero s0z, uhfF_beta inpUzero s0z) then true
      else s0z.converged) = true
    rw [if_pos s0z_test_pass]
  rw [show iteration_max = 99 + 1 from rfl, uhfLoop_succ, if_pos ⟨rfl, rfl⟩,
    uhfStep_first inpUzero eighZero1 s0z rfl, Option.some_bind,
    show (99 : ℕ) = 98 + 1 from rfl, uhfLoop_succ, if_neg (by
      intro hcond
      rw [hpc] at hcond
      exact absurd hcond.1 (by norm_num))]

/-- Witness for the amended C8: the all-zero run returns normally and the
theorem reports a terminal flag. -/
theorem claim_C8_amended_witness :
    (uhfPost inpUzero eighZero1 s0z
        (uhfF_alpha inpUzero s0z, uhfF_beta inpUzero s0z)).converged = true ∨
      (uhfPost inpUzero eighZero1 s0z
        (uhfF_alpha inpUzero s0z,
          uhfF_beta inpUzero s0z)).exceeded_iterations = true :=
  (claim_C8_amended 1 inpUzero eighZero1 s0z _ rfl uhfLoop_zero_run).1

/-- **C1**. The claim states that for every pair of symmetric density
matrices the unrestricted Fock builder produces
`Gσ_ij = Σ_kl Ptotal_kl·(ij|kl) − Pσ_kl·(ik|jl)`.  The code instead
contracts the Coulomb term against twice the *same-spin* density
(`G_sigma[i,j] += D_sigma[k,l]*(2*eri[i,j,k,l] - eri[i,k,j,l])`).  At the
(symmetric) densities `P_alpha = [[1]]`, `P_beta = 0` with all integrals `1`,
the code produces `G_alpha[0,0] = 1` while the claimed formula gives `0`. -/
theorem claim_C1 :
    uhfG eriOne matOne1 0 0 = 1 ∧
      uhfG_specFormula eriOne (matOne1 + 0) matOne1 0 0 = 0 := by
  refine ⟨?_, ?_⟩
  · simp [uhfG, eriOne, matOne1, Fin.sum_univ_one]
    norm_num
  · simp [uhfG_specFormula, eriOne, matOne1, Fin.sum_univ_one]

end SCF
